import Mathlib

/-!
Verification of the color-palette generator (src/main.rs of TheMical/lcpg).

Numeric model.  The Rust code computes with `f32`; floating-point values are
modelled as exact rationals (`ℚ`).  Euclidean distances (the `acap` crate's
`distance`) are only ever compared, and the square root is strictly monotone,
so distance comparisons are modelled by comparisons of squared distances.
Rust panics (out-of-bounds indexing, `unwrap` on a parse error, the
`visited[0]` indexing of an empty vector) are modelled by `Option`, with
`none` standing for the panic.  Rust strings are modelled as `List Char`;
every string that parses successfully is ASCII, where byte indexing and
character indexing agree, and on non-ASCII input both the byte model and the
character model fail (either an invalid-digit error or a slice panic), so the
success/failure verdicts and parsed values coincide.

External crates.  The color-space conversions (palette crate) and the glyph
layout (rusttype crate) are not part of this repository's sources.  Following
the spec they are modelled as follows: RGB→HSL and HSL→RGB are the standard
formulas the spec calls "standard deterministic color-space conversions"
(matching the palette crate's branch structure, including possibly negative
hue); the 8-bit quantization rounds each channel scaled by 255; the Oklab
conversion (which involves cube roots and the sRGB transfer function, both
irrational) enters the model as an explicit function parameter `oklab`, and
every sequencing theorem is proved for an arbitrary `oklab`, hence in
particular for the true one; the text measurement enters the model as an
abstract pixel-width function of the loop iteration.
-/

namespace Lcpg

/-- Hex digit value, as in `char::to_digit(16)` used by `u8::from_str_radix`:
48..57 are the decimal digits, 97..102 lowercase a-f, 65..70 uppercase A-F. -/
def hexVal (c : Char) : Option ℕ :=
  let n := c.toNat
  if 48 ≤ n ∧ n ≤ 57 then some (n - 48)
  else if 97 ≤ n ∧ n ≤ 102 then some (n - 87)
  else if 65 ≤ n ∧ n ≤ 70 then some (n - 55)
  else none

/-- Digit accumulation of `u8::from_str_radix` for an unsigned (or
'+'-signed) number: each step is a checked multiply-by-16 and add, failing
once the value would exceed 255. -/
def parseHexPos : List Char → ℕ → Option ℕ
  | [], acc => some acc
  | c :: t, acc =>
    match hexVal c with
    | none => none
    | some d => if acc * 16 + d ≤ 255 then parseHexPos t (acc * 16 + d) else none

/-- Digit accumulation of `u8::from_str_radix` for a '-'-signed number parsed
into a u8: each step is a checked subtraction from the running value, so it
succeeds only while every digit is zero. -/
def parseHexNeg : List Char → ℕ → Option ℕ
  | [], acc => some acc
  | c :: t, acc =>
    match hexVal c with
    | none => none
    | some d => if d ≤ acc * 16 then parseHexNeg t (acc * 16 - d) else none

/-- `u8::from_str_radix(s, 16)`: an optional leading sign followed by a
nonempty digit string; fails on an empty digit string, an invalid digit, or
on overflow (underflow for a '-' sign). -/
def u8FromStrRadix16 (s : List Char) : Option ℕ :=
  match s with
  | [] => none
  | c :: t =>
    if c = '+' then if t = [] then none else parseHexPos t 0
    else if c = '-' then if t = [] then none else parseHexNeg t 0
    else parseHexPos (c :: t) 0

/-- Rust slice `&s[a..b]` on the character list; `none` models the
out-of-range panic. -/
def strSlice (s : List Char) (a b : ℕ) : Option (List Char) :=
  if b ≤ s.length then some ((s.drop a).take (b - a)) else none

/-- The slicing-and-parsing body of `hex_to_rgb` after the '#'-stripping. -/
def hexCore (s : List Char) : Option (ℕ × ℕ × ℕ) := do
  let rs ← strSlice s 0 2
  let gs ← strSlice s 2 4
  let bs ← strSlice s 4 6
  let r ← u8FromStrRadix16 rs
  let g ← u8FromStrRadix16 gs
  let b ← u8FromStrRadix16 bs
  return (r, g, b)

/-- `hex_to_rgb` (src/main.rs lines 77-83).  `trim_start_matches('#')`
removes every leading '#' (not just one); then the three 2-character slices
at 0-2, 2-4, 4-6 are parsed as u8 hex values.  `none` models the panic from
an out-of-range slice or the `unwrap` of a failed parse. -/
def hex_to_rgb (hex : String) : Option (ℕ × ℕ × ℕ) :=
  hexCore (hex.toList.dropWhile (fun c => c = '#'))

/-- HSL triple: hue in degrees (the RGB→HSL conversion can produce a negative
hue, in [-60, 300]), saturation and lightness in [0, 1] for in-gamut input. -/
structure Hsl where
  hue : ℚ
  saturation : ℚ
  lightness : ℚ
deriving DecidableEq

/-- Modelled from the spec: `to_hsl` lives in the external palette crate (the
spec: "standard deterministic color-space conversions").  This is the
standard RGB→HSL formula with the palette crate's branch behavior: hue is
60·((g-b)/Δ) when red is the (first) maximal channel, which is negative when
b > g, as the spec's data model notes. -/
def toHsl (rgb : ℚ × ℚ × ℚ) : Hsl :=
  let r := rgb.1
  let g := rgb.2.1
  let b := rgb.2.2
  let maxc := max r (max g b)
  let minc := min r (min g b)
  let delta := maxc - minc
  let l := (maxc + minc) / 2
  if delta = 0 then ⟨0, 0, l⟩
  else
    let s := delta / (1 - |2 * l - 1|)
    let h :=
      if maxc = r then 60 * ((g - b) / delta)
      else if maxc = g then 60 * ((b - r) / delta + 2)
      else 60 * ((r - g) / delta + 4)
    ⟨h, s, l⟩

/-- Rational remainder, in [0, b) for b > 0. -/
def qmod (a b : ℚ) : ℚ := a - b * ⌊a / b⌋

/-- Modelled from the spec: `from_hsl` (HSL→RGB) lives in the external
palette crate; this is the standard chroma/sextant formula, with the hue
first wrapped into [0, 360). -/
def fromHsl (hsl : Hsl) : ℚ × ℚ × ℚ :=
  let c := (1 - |2 * hsl.lightness - 1|) * hsl.saturation
  let hp := qmod hsl.hue 360 / 60
  let x := c * (1 - |qmod hp 2 - 1|)
  let m := hsl.lightness - c / 2
  let rgb1 : ℚ × ℚ × ℚ :=
    if hp < 1 then (c, x, 0)
    else if hp < 2 then (x, c, 0)
    else if hp < 3 then (0, c, x)
    else if hp < 4 then (0, x, c)
    else if hp < 5 then (x, 0, c)
    else (c, 0, x)
  (rgb1.1 + m, rgb1.2.1 + m, rgb1.2.2 + m)

/-- Modelled from the spec: `into_format::<u8>` of the palette crate scales a
channel by 255 and rounds, saturating into 0..=255. -/
def toU8 (x : ℚ) : ℕ := (min 255 (max 0 (round (255 * x)))).toNat

/-- Channel-wise 8-bit quantization of an RGB triple. -/
def quantize (rgb : ℚ × ℚ × ℚ) : ℕ × ℕ × ℕ := (toU8 rgb.1, toU8 rgb.2.1, toU8 rgb.2.2)

/-- `luminance` (src lines 34-37): converts the HSL color to sRGB and takes
the Rec. 601 weighted sum 0.299·R + 0.587·G + 0.114·B. -/
def luminance (hsl : Hsl) : ℚ :=
  let rgb := fromHsl hsl
  299/1000 * rgb.1 + 587/1000 * rgb.2.1 + 114/1000 * rgb.2.2

/-- `pick_label_color` (src lines 39-75), kept structurally faithful: the
`used` marker strings (including the source's trailing space in "dark ") and
the boolean flags mirror the source. -/
def pick_label_color (bg : ℚ × ℚ × ℚ) : ℕ × ℕ × ℕ :=
  let hslBg := toHsl bg
  let hue := if hslBg.hue < 0 then hslBg.hue + 360 else hslBg.hue
  let hslLabel : Hsl := { hslBg with saturation := hslBg.saturation * (1/2) }
  let lightened : Hsl := { hslLabel with lightness := 775/1000 }
  let darkened : Hsl := { hslLabel with lightness := 28/100 }
  let lBg := luminance hslBg
  let visuallyDarkBg : Bool :=
    decide (lBg < 62/100 ∧ hslBg.saturation * hslBg.lightness > 1/10)
  let huePrefersLight : Bool :=
    decide ((36 ≤ hue ∧ hue ≤ 80) ∨ (90 ≤ hue ∧ hue ≤ 185) ∨ (300 ≤ hue ∧ hue ≤ 340))
  let lLight := luminance lightened
  let lDark := luminance darkened
  let used : String :=
    if visuallyDarkBg && huePrefersLight then "light"
    else if |lLight - lBg| > |lDark - lBg| then "light"
    else "dark "
  let chosen := if used = "light" then lightened else darkened
  quantize (fromHsl chosen)

/-- One color entry of the input list (src lines 28-32). -/
structure ColorEntry where
  name : String
  hex : String
deriving DecidableEq

/-- The raw channel floats built at src line 155:
`Srgb::new(r as f32, g as f32, b as f32)` — note: no division by 255. -/
def rawChannels (rgb : ℕ × ℕ × ℕ) : ℚ × ℚ × ℚ :=
  ((rgb.1 : ℚ), (rgb.2.1 : ℚ), (rgb.2.2 : ℚ))

/-- Channel normalization into [0,1], as the spec's NormalizedRGB prescribes
and as src lines 194 and 242 perform. -/
def normalizeRgb (rgb : ℕ × ℕ × ℕ) : ℚ × ℚ × ℚ :=
  ((rgb.1 : ℚ) / 255, (rgb.2.1 : ℚ) / 255, (rgb.2.2 : ℚ) / 255)

/-- Parse the hex field of every entry (the `hex_to_rgb` calls inside the
`map` at src lines 152-162); `none` models the panic of the first failing
`unwrap`. -/
def parseAll : List ColorEntry → Option (List (ℕ × ℕ × ℕ))
  | [] => some []
  | c :: cs => do
    let rgb ← hex_to_rgb c.hex
    let rest ← parseAll cs
    return rgb :: rest

/-- The perceptual coordinates computed at src lines 152-162: each entry's
hex is parsed and the raw channel floats (no /255) are fed to the Oklab
conversion `oklab`, which is a model parameter (see the header comment). -/
def coordsOf (oklab : ℚ × ℚ × ℚ → ℚ × ℚ × ℚ) (colors : List ColorEntry) :
    Option (List (ℚ × ℚ × ℚ)) :=
  (parseAll colors).map (fun rgbs => rgbs.map (fun rgb => oklab (rawChannels rgb)))

/-- Squared Euclidean distance; the source compares Euclidean distances,
which gives the same branches. -/
def dist2 (p q : ℚ × ℚ × ℚ) : ℚ :=
  (p.1 - q.1) * (p.1 - q.1) + (p.2.1 - q.2.1) * (p.2.1 - q.2.1) +
    (p.2.2 - q.2.2) * (p.2.2 - q.2.2)

/-- The inner scan of `sort_colors` (src lines 172-181): over all indices, in
order, skip visited ones and keep the strictly closest candidate (ties keep
the earlier index). -/
def nearestGo (visited : List Bool) (cur : ℚ × ℚ × ℚ) :
    List (ℚ × ℚ × ℚ) → ℕ → Option (ℕ × ℚ) → Option (ℕ × ℚ)
  | [], _, acc => acc
  | p :: ps, i, acc =>
    nearestGo visited cur ps (i + 1)
      (if visited.getD i true then acc
       else
         match acc with
         | none => some (i, dist2 cur p)
         | some (j, d) => if dist2 cur p < d then some (i, dist2 cur p) else some (j, d))

/-- Entry point of the nearest-unvisited scan. -/
def nearestScan (coords : List (ℚ × ℚ × ℚ)) (visited : List Bool) (cur : ℚ × ℚ × ℚ) :
    Option (ℕ × ℚ) :=
  nearestGo visited cur coords 0 none

/-- One iteration of the nearest-neighbour loop (src lines 170-188); the
state is (path, visited, index of the current point).  When the scan finds
nothing (`if let Some`), the state is unchanged, as in the source. -/
def greedyStep (coords : List (ℚ × ℚ × ℚ)) (st : List ℕ × List Bool × ℕ) :
    List ℕ × List Bool × ℕ :=
  match nearestScan coords st.2.1 (coords.getD st.2.2 (0, 0, 0)) with
  | some (next, _) => (st.1 ++ [next], st.2.1.set next true, next)
  | none => st

/-- The initial state of the loop (src lines 165-168): path [0], index 0
visited, current point 0. -/
def greedyInit (coords : List (ℚ × ℚ × ℚ)) : List ℕ × List Bool × ℕ :=
  ([0], (List.replicate coords.length false).set 0 true, 0)

/-- The nearest-neighbour path of `sort_colors` (src lines 164-188): n-1
iterations of the loop.  `none` models the out-of-bounds panic of
`visited[0]` (and `&hsl_coords[0]`) on an empty input. -/
def greedyPath (coords : List (ℚ × ℚ × ℚ)) : Option (List ℕ) :=
  if coords.length = 0 then none
  else some ((greedyStep coords)^[coords.length - 1] (greedyInit coords)).1

/-- The re-sort key of `sort_colors` (src lines 192-200), computed from the
entry's RGB8 normalized by 255 (this stage, unlike line 155, does divide).
`(hsl.lightness*100.0) as i32` truncates toward zero; lightness is
nonnegative here, so this is the floor. -/
def finalKey (rgb : ℕ × ℕ × ℕ) : ℤ × ℤ :=
  let hsl := toHsl (normalizeRgb rgb)
  if hsl.saturation < 1/20 ∧ hsl.lightness > 3/4 then (1, ⌊hsl.lightness * 100⌋)
  else (0, 0)

/-- Rust's tuple ordering on (i32, i32): lexicographic. -/
def keyLe (a b : ℤ × ℤ) : Prop := a.1 < b.1 ∨ (a.1 = b.1 ∧ a.2 ≤ b.2)

instance : DecidableRel keyLe := fun a b =>
  inferInstanceAs (Decidable (a.1 < b.1 ∨ (a.1 = b.1 ∧ a.2 ≤ b.2)))

/-- Comparison by a key function under the lexicographic `keyLe` — the shape
of every `sort_by_key` comparison. -/
def sortKeyRel {α : Type} (κ : α → ℤ × ℤ) (a b : α) : Prop := keyLe (κ a) (κ b)

instance {α : Type} (κ : α → ℤ × ℤ) : DecidableRel (sortKeyRel κ) := fun _ _ =>
  inferInstanceAs (Decidable (keyLe _ _))

theorem keyLe_total (a b : ℤ × ℤ) : keyLe a b ∨ keyLe b a := by
  unfold keyLe
  omega

theorem keyLe_trans {a b c : ℤ × ℤ} (h1 : keyLe a b) (h2 : keyLe b c) : keyLe a c := by
  unfold keyLe at h1 h2 ⊢
  omega

theorem keyLe_refl (a : ℤ × ℤ) : keyLe a a := Or.inr ⟨rfl, le_refl _⟩

theorem ne_of_not_keyLe {a b : ℤ × ℤ} (h : ¬ keyLe a b) : b ≠ a := by
  intro he
  exact h (he ▸ keyLe_refl b)

instance {α : Type} (κ : α → ℤ × ℤ) : IsTotal α (sortKeyRel κ) :=
  ⟨fun a b => keyLe_total (κ a) (κ b)⟩

instance {α : Type} (κ : α → ℤ × ℤ) : IsTrans α (sortKeyRel κ) :=
  ⟨fun _ _ _ h1 h2 => keyLe_trans h1 h2⟩

/-- The per-index sort key of `sort_colors` (src lines 192-200): the final
key of the entry the index points to. -/
def idxKey (rgbs : List (ℕ × ℕ × ℕ)) (i : ℕ) : ℤ × ℤ := finalKey (rgbs.getD i (0, 0, 0))

/-- Comparison of two path indices by the final key of the entries they point
to (the `sort_by_key` comparison of src lines 192-200 seen on indices). -/
def keyRel (rgbs : List (ℕ × ℕ × ℕ)) : ℕ → ℕ → Prop := sortKeyRel (idxKey rgbs)

instance (rgbs : List (ℕ × ℕ × ℕ)) : DecidableRel (keyRel rgbs) :=
  inferInstanceAs (DecidableRel (sortKeyRel (idxKey rgbs)))

/-- `sort_colors` (src lines 151-202), tracking entry indices: parse all
entries, build the nearest-neighbour path over the perceptual coordinates,
and stably re-sort it by the final key.  Rust's stable `sort_by_key` is
modelled by `List.insertionSort` with the (total, transitive) relation
`keyRel`, whose `orderedInsert` places each element before the first
later-inserted element of greater-or-equal key — the unique stable result.
The source sorts the mapped entry list `path.map (colors[·])`; sorting the
index list by the key of the pointed-to entry is the same sort seen through
that map, since the key depends only on the entry. -/
def sort_colors (oklab : ℚ × ℚ × ℚ → ℚ × ℚ × ℚ) (colors : List ColorEntry) :
    Option (List ℕ) := do
  let rgbs ← parseAll colors
  let coords := rgbs.map (fun rgb => oklab (rawChannels rgb))
  let path ← greedyPath coords
  return List.insertionSort (keyRel rgbs) path

/-- The fit threshold of the text fitter (src line 119): `width - width/20`
in u32 (natural) arithmetic. -/
def fitThreshold (width : ℕ) : ℕ := width - width / 20

/-- The measured glyph-run width at loop iteration k (src lines 113-117):
the raw bounding-box width — glyph layout is external (rusttype), so `raw`
is a model parameter giving the pixel width at scale divisor
`initial + 0.5·k` — clamped below by 1 (`.max(1)`). -/
def measuredWidth (raw : ℕ → ℕ) (k : ℕ) : ℕ := max (raw k) 1

/-- The fit test of the scale-search loop (src line 119) at iteration k. -/
def fitsAt (raw : ℕ → ℕ) (width k : ℕ) : Prop :=
  measuredWidth raw k < fitThreshold width

instance (raw : ℕ → ℕ) (width : ℕ) : DecidablePred (fitsAt raw width) := fun k =>
  inferInstanceAs (Decidable (measuredWidth raw k < fitThreshold width))

/-! Definitions written from the spec's words, for the refinement-style
claims (they are compared against the source-derived definitions above). -/

/-- A 2-character token accepted by `u8::from_str_radix(·, 16)` as a u8: two
hex digits, '+' followed by a hex digit, or '-' followed by a zero digit. -/
def validPair (a b : Char) : Prop :=
  ((hexVal a).isSome ∧ (hexVal b).isSome) ∨ (a = '+' ∧ (hexVal b).isSome) ∨
    (a = '-' ∧ hexVal b = some 0)

instance (a b : Char) : Decidable (validPair a b) :=
  inferInstanceAs (Decidable (_ ∨ _ ∨ _))

/-- Failure condition of `hexCore` on the stripped character list: fewer
than 6 characters, or one of the three 2-character pairs is not a valid
u8 hex token. -/
def malformedCore (t : List Char) : Prop :=
  t.length < 6 ∨ ¬ validPair (t.getD 0 ' ') (t.getD 1 ' ') ∨
    ¬ validPair (t.getD 2 ' ') (t.getD 3 ' ') ∨ ¬ validPair (t.getD 4 ' ') (t.getD 5 ' ')

instance (t : List Char) : Decidable (malformedCore t) :=
  inferInstanceAs (Decidable (_ ∨ _ ∨ _ ∨ _))

/-- The amended claim C3 failure condition: after stripping ALL leading '#'
characters, the remainder is malformed in the sense of `malformedCore`. -/
def amendedMalformed (s : String) : Prop :=
  malformedCore (s.toList.dropWhile (fun c => c = '#'))

instance (s : String) : Decidable (amendedMalformed s) :=
  inferInstanceAs (Decidable (malformedCore _))

/-- Strip one optional leading '#', as claim C3's words have it. -/
def stripOneHash (l : List Char) : List Char :=
  match l with
  | '#' :: r => r
  | r => r

/-- The failure condition exactly as claim C3 states it: after one optional
leading '#', the string is shorter than 6 characters or contains a
non-hex-digit character among the first 6. -/
def specC3Malformed (s : String) : Prop :=
  (stripOneHash s.toList).length < 6 ∨ ∃ c ∈ (stripOneHash s.toList).take 6, hexVal c = none

instance (s : String) : Decidable (specC3Malformed s) :=
  inferInstanceAs (Decidable (_ ∨ _))

/-- The Contrast Selector decision rule exactly as the spec states it (claim
C5): both candidates carry the background's normalized hue with saturation
halved; if the background is visually dark and the normalized hue falls in a
preferred band, the lightened candidate is chosen outright; otherwise the
candidate whose luminance is farther from the background's wins, ties going
to the darkened one. -/
def specPickLabelColor (bg : ℚ × ℚ × ℚ) : ℕ × ℕ × ℕ :=
  let hslBg := toHsl bg
  let hue := if hslBg.hue < 0 then hslBg.hue + 360 else hslBg.hue
  let lightened : Hsl := ⟨hue, hslBg.saturation * (1/2), 775/1000⟩
  let darkened : Hsl := ⟨hue, hslBg.saturation * (1/2), 28/100⟩
  let lBg := luminance hslBg
  if (lBg < 62/100 ∧ hslBg.saturation * hslBg.lightness > 1/10) ∧
      ((36 ≤ hue ∧ hue ≤ 80) ∨ (90 ≤ hue ∧ hue ≤ 185) ∨ (300 ≤ hue ∧ hue ≤ 340)) then
    quantize (fromHsl lightened)
  else if |luminance lightened - lBg| > |luminance darkened - lBg| then
    quantize (fromHsl lightened)
  else quantize (fromHsl darkened)

/-- The re-sort key as claim C6 states it, with round instead of the
source's truncation. -/
def specRoundKey (rgb : ℕ × ℕ × ℕ) : ℤ × ℤ :=
  let hsl := toHsl (normalizeRgb rgb)
  if hsl.saturation < 1/20 ∧ hsl.lightness > 3/4 then (1, round (hsl.lightness * 100))
  else (0, 0)

/-! Lemmas about hex parsing. -/

theorem hexVal_le_15 {c : Char} {v : ℕ} (h : hexVal c = some v) : v ≤ 15 := by
  simp only [hexVal] at h
  split_ifs at h with h1 h2 h3 <;> simp_all <;> omega

theorem parseHexPos_pair_some {a b : Char} {va vb : ℕ} (ha : hexVal a = some va)
    (hb : hexVal b = some vb) : parseHexPos [a, b] 0 = some (va * 16 + vb) := by
  have hva := hexVal_le_15 ha
  have hvb := hexVal_le_15 hb
  simp [parseHexPos, ha, hb, show va ≤ 255 by omega, show va * 16 + vb ≤ 255 by omega]

theorem u8_pair_some {a b : Char} {va vb : ℕ} (ha : hexVal a = some va)
    (hb : hexVal b = some vb) : u8FromStrRadix16 [a, b] = some (va * 16 + vb) := by
  have hpa : ¬ a = '+' := by
    intro h
    rw [h, show hexVal '+' = none from by decide] at ha
    exact Option.noConfusion ha
  have hma : ¬ a = '-' := by
    intro h
    rw [h, show hexVal '-' = none from by decide] at ha
    exact Option.noConfusion ha
  simp only [u8FromStrRadix16]
  rw [if_neg hpa, if_neg hma]
  exact parseHexPos_pair_some ha hb

theorem u8_pair_none_iff (a b : Char) :
    u8FromStrRadix16 [a, b] = none ↔ ¬ validPair a b := by
  simp only [u8FromStrRadix16]
  by_cases hpa : a = '+'
  · subst hpa
    rw [if_pos rfl, if_neg (by simp : ¬([b] : List Char) = [])]
    have hplus : hexVal '+' = none := by decide
    rcases hb : hexVal b with _ | vb
    · simp [parseHexPos, hb, validPair, hplus]
    · have hvb := hexVal_le_15 hb
      simp [parseHexPos, hb, validPair, hplus, show vb ≤ 255 by omega]
  · by_cases hma : a = '-'
    · subst hma
      rw [if_neg (by decide : ¬('-' : Char) = '+'), if_pos rfl,
        if_neg (by simp : ¬([b] : List Char) = [])]
      have hminus : hexVal '-' = none := by decide
      rcases hb : hexVal b with _ | vb
      · simp [parseHexNeg, hb, validPair, hminus]
      · rcases Nat.eq_zero_or_pos vb with hz | hz
        · subst hz
          simp [parseHexNeg, hb, validPair, hminus]
        · have hlt : ¬ vb ≤ 0 * 16 := by omega
          simp only [parseHexNeg, hb, hlt, if_false]
          simp [validPair, hminus, hb]
          omega
    · rw [if_neg hpa, if_neg hma]
      rcases ha : hexVal a with _ | va
      · simp [parseHexPos, ha, validPair, hpa, hma]
      · have hva := hexVal_le_15 ha
        rcases hb : hexVal b with _ | vb
        · simp [parseHexPos, ha, hb, validPair, hpa, hma, show va ≤ 255 by omega]
        · rw [parseHexPos_pair_some ha hb]
          simp [validPair, ha, hb, hpa, hma]

theorem strSlice_cons6_02 (a b c d e f : Char) (r : List Char) :
    strSlice (a :: b :: c :: d :: e :: f :: r) 0 2 = some [a, b] := by
  rw [strSlice, if_pos (by simp)]
  rfl

theorem strSlice_cons6_24 (a b c d e f : Char) (r : List Char) :
    strSlice (a :: b :: c :: d :: e :: f :: r) 2 4 = some [c, d] := by
  rw [strSlice, if_pos (by simp)]
  rfl

theorem strSlice_cons6_46 (a b c d e f : Char) (r : List Char) :
    strSlice (a :: b :: c :: d :: e :: f :: r) 4 6 = some [e, f] := by
  rw [strSlice, if_pos (by simp)]
  rfl

theorem hexCore_cons6 (a b c d e f : Char) (r : List Char) :
    hexCore (a :: b :: c :: d :: e :: f :: r) =
      (u8FromStrRadix16 [a, b]).bind fun x =>
        (u8FromStrRadix16 [c, d]).bind fun y =>
          (u8FromStrRadix16 [e, f]).bind fun z => some (x, y, z) := by
  rw [hexCore, strSlice_cons6_02, strSlice_cons6_24, strSlice_cons6_46]
  rfl

theorem hexCore_none_iff (t : List Char) : hexCore t = none ↔ malformedCore t := by
  match t with
  | [] => simp [hexCore, strSlice, malformedCore]
  | [a] => simp [hexCore, strSlice, malformedCore]
  | [a, b] => simp [hexCore, strSlice, malformedCore]
  | [a, b, c] => simp [hexCore, strSlice, malformedCore]
  | [a, b, c, d] => simp [hexCore, strSlice, malformedCore]
  | [a, b, c, d, e] => simp [hexCore, strSlice, malformedCore]
  | a :: b :: c :: d :: e :: f :: r =>
    have h1 := u8_pair_none_iff a b
    have h2 := u8_pair_none_iff c d
    have h3 := u8_pair_none_iff e f
    rw [hexCore_cons6]
    have hlen : ¬ (a :: b :: c :: d :: e :: f :: r).length < 6 := by simp
    simp only [malformedCore, List.getD, hlen, false_or, List.getElem?_cons_zero,
      List.getElem?_cons_succ, Option.getD_some]
    rcases hu1 : u8FromStrRadix16 [a, b] with _ | v1
    · simp only [Option.none_bind]
      simp [h1.mp hu1]
    · have hv1 : validPair a b := by
        by_contra hcon
        rw [← h1, hu1] at hcon
        exact absurd hcon (by simp)
      rcases hu2 : u8FromStrRadix16 [c, d] with _ | v2
      · simp only [Option.some_bind, Option.none_bind]
        simp [h2.mp hu2, hv1]
      · have hv2 : validPair c d := by
          by_contra hcon
          rw [← h2, hu2] at hcon
          exact absurd hcon (by simp)
        rcases hu3 : u8FromStrRadix16 [e, f] with _ | v3
        · simp only [Option.some_bind, Option.none_bind]
          simp [h3.mp hu3, hv1, hv2]
        · have hv3 : validPair e f := by
            by_contra hcon
            rw [← h3, hu3] at hcon
            exact absurd hcon (by simp)
          simp only [Option.some_bind]
          simp [hv1, hv2, hv3]

theorem hexCore_some {a b c d e f : Char} (r : List Char) {va vb vc vd ve vf : ℕ}
    (ha : hexVal a = some va) (hb : hexVal b = some vb) (hc : hexVal c = some vc)
    (hd : hexVal d = some vd) (he : hexVal e = some ve) (hf : hexVal f = some vf) :
    hexCore (a :: b :: c :: d :: e :: f :: r) =
      some (va * 16 + vb, vc * 16 + vd, ve * 16 + vf) := by
  rw [hexCore_cons6, u8_pair_some ha hb, u8_pair_some hc hd, u8_pair_some he hf]
  rfl

theorem hexVal_ne_hash {c : Char} {v : ℕ} (h : hexVal c = some v) : ¬ c = '#' := by
  intro hcontra
  rw [hcontra, show hexVal '#' = none from by decide] at h
  exact Option.noConfusion h

theorem dropWhile_hash_replicate (k : ℕ) (t : List Char) (ht : t.dropWhile (fun ch => ch = '#') = t) :
    (List.replicate k '#' ++ t).dropWhile (fun ch => ch = '#') = t := by
  induction k with
  | zero => simpa using ht
  | succ n ih =>
    rw [List.replicate_succ, List.cons_append, List.dropWhile_cons]
    simpa using ih

/-- Claim C3 is corrected, counterexample: the input "##ff0000" is malformed
in the claim's sense (after one optional '#', the first pair "#f" contains
the non-hex character '#'), yet `hex_to_rgb` succeeds with (255, 0, 0),
because `trim_start_matches('#')` strips every leading '#', not just one. -/
theorem C3_multihash_cex :
    specC3Malformed "##ff0000" ∧ hex_to_rgb "##ff0000" = some (255, 0, 0) :=
  ⟨by decide, by decide⟩

/-- Claim C3 as amended: hex parsing fails (modelled `none`, a panic in the
source rather than a returned ParseError value) exactly when, after
stripping ALL leading '#' characters, fewer than 6 characters remain or one
of the 2-character pairs at offsets 0-2, 2-4, 4-6 is not a token accepted by
`u8::from_str_radix` (two hex digits, '+' then a hex digit, or '-' then a
zero digit); on such input no RGB8 value is produced. -/
theorem C3_amended_iff (s : String) : hex_to_rgb s = none ↔ amendedMalformed s :=
  hexCore_none_iff _

/-- Claim C10: for every input of any number of leading '#' characters
followed by at least six hex digits (upper or lower case) and an arbitrary
remainder, parsing succeeds with the three bytes encoded by the first three
2-digit pairs, ignoring everything after the sixth digit. -/
theorem C10_hex_lenient (k : ℕ) (a b c d e f : Char) (r : List Char)
    (va vb vc vd ve vf : ℕ)
    (ha : hexVal a = some va) (hb : hexVal b = some vb) (hc : hexVal c = some vc)
    (hd : hexVal d = some vd) (he : hexVal e = some ve) (hf : hexVal f = some vf) :
    hex_to_rgb ⟨List.replicate k '#' ++ a :: b :: c :: d :: e :: f :: r⟩ =
      some (va * 16 + vb, vc * 16 + vd, ve * 16 + vf) := by
  have hdrop : (List.replicate k '#' ++ a :: b :: c :: d :: e :: f :: r).dropWhile
      (fun ch => ch = '#') = a :: b :: c :: d :: e :: f :: r := by
    apply dropWhile_hash_replicate
    rw [List.dropWhile_cons]
    simp [hexVal_ne_hash ha]
  show hexCore ((List.replicate k '#' ++ a :: b :: c :: d :: e :: f :: r).dropWhile
      (fun ch => ch = '#')) = some (va * 16 + vb, vc * 16 + vd, ve * 16 + vf)
  rw [hdrop]
  exact hexCore_some r ha hb hc hd he hf

/-- Claim C10 witness: "##1a2B3cXY" parses to (26, 43, 60), the trailing
"XY" being ignored. -/
theorem C10_hex_lenient_witness :
    hex_to_rgb ⟨List.replicate 2 '#' ++ '1' :: 'a' :: '2' :: 'B' :: '3' :: 'c' :: ['X', 'Y']⟩ =
      some (1 * 16 + 10, 2 * 16 + 11, 3 * 16 + 12) :=
  C10_hex_lenient 2 '1' 'a' '2' 'B' '3' 'c' ['X', 'Y'] 1 10 2 11 3 12 (by decide) (by decide)
    (by decide) (by decide) (by decide) (by decide)

/-- Claim C1 (code bug): the sequencing coordinates are the Oklab conversion
applied to the RAW channel values, not to channels divided by 255.
`coordsOf` is exactly the coordinate pipeline of src lines 152-162 with the
external Oklab conversion as a parameter; instantiating it with the identity
exposes the argument that reaches the conversion: for the entry "FF0000" it
is (255, 0, 0), while the spec's NormalizedRGB of that entry is (1, 0, 0). -/
theorem C1_unnormalized_coords :
    hex_to_rgb "FF0000" = some (255, 0, 0) ∧
    coordsOf id [⟨"red", "FF0000"⟩] = some [((255 : ℚ), (0 : ℚ), (0 : ℚ))] ∧
    normalizeRgb (255, 0, 0) = ((1 : ℚ), (0 : ℚ), (0 : ℚ)) ∧
    rawChannels (255, 0, 0) ≠ normalizeRgb (255, 0, 0) := by
  refine ⟨by decide, by decide, ?_, ?_⟩
  · unfold normalizeRgb
    norm_num
  · unfold rawChannels normalizeRgb
    intro hcontra
    rw [Prod.ext_iff] at hcontra
    norm_num at hcontra

/-- Claim C2 counterexample: on the empty list the sequencer does NOT return
an empty ordering — `visited[0] = true` (src line 167) indexes an empty
vector, a panic, modelled by `none` (shown here at a concrete conversion;
`greedyPath` returns `none` on the empty list before ever consulting the
coordinates, so the choice of conversion is immaterial). -/
theorem C2_empty_cex :
    sort_colors id [] = none ∧ ¬ sort_colors id [] = some [] :=
  ⟨rfl, by decide⟩

/-- Claim C2 as amended: the single-entry case does hold — for any Oklab
conversion and any entry whose hex parses, the sequencer returns the trivial
one-element ordering [0]; only the empty-list half of the claim fails. -/
theorem C2_singleton (oklab : ℚ × ℚ × ℚ → ℚ × ℚ × ℚ) (c : ColorEntry)
    (rgb : ℕ × ℕ × ℕ) (h : hex_to_rgb c.hex = some rgb) :
    sort_colors oklab [c] = some [0] := by
  unfold sort_colors
  rw [show parseAll [c] = some [rgb] by simp [parseAll, h]]
  simp only [Option.some_bind, Option.bind_eq_bind, List.map_cons, List.map_nil]
  rw [show greedyPath [oklab (rawChannels rgb)] = some [0] by
    unfold greedyPath greedyInit
    simp]
  simp [List.insertionSort]

/-- Claim C2 witness for the amended single-entry statement. -/
theorem C2_singleton_witness : sort_colors id [⟨"white", "ffffff"⟩] = some [0] :=
  C2_singleton id ⟨"white", "ffffff"⟩ (255, 255, 255) (by decide)

/-! Stability of the key sort: `orderedInsert` under `sortKeyRel` walks past
exactly the elements of strictly smaller key, so filtering any fixed key
class commutes with the sort.  This is the stability property of Rust's
`sort_by_key`. -/

theorem filter_orderedInsert_key {α : Type} (κ : α → ℤ × ℤ) (k : ℤ × ℤ) (x : α)
    (L : List α) :
    (List.orderedInsert (sortKeyRel κ) x L).filter (fun a => κ a = k) =
      if κ x = k then x :: L.filter (fun a => κ a = k)
      else L.filter (fun a => κ a = k) := by
  induction L with
  | nil =>
    by_cases hk : κ x = k <;> simp [List.orderedInsert, List.filter_cons, hk]
  | cons y L ih =>
    rw [List.orderedInsert]
    by_cases hxy : sortKeyRel κ x y
    · rw [if_pos hxy]
      by_cases hk : κ x = k <;> simp [List.filter_cons, hk]
    · rw [if_neg hxy]
      have hne : κ y ≠ κ x := ne_of_not_keyLe hxy
      rw [List.filter_cons]
      by_cases hyk : κ y = k
      · have hxk : ¬ κ x = k := fun h2 => hne (by rw [hyk, h2])
        simp only [ih, hxk, if_false]
        simp [List.filter_cons, hyk, hxk]
      · simp only [ih]
        by_cases hk : κ x = k <;> simp [List.filter_cons, hyk, hk]

theorem filter_insertionSort_key {α : Type} (κ : α → ℤ × ℤ) (k : ℤ × ℤ) (l : List α) :
    (List.insertionSort (sortKeyRel κ) l).filter (fun a => κ a = k) =
      l.filter (fun a => κ a = k) := by
  induction l with
  | nil => rfl
  | cons x l ih =>
    rw [List.insertionSort, filter_orderedInsert_key]
    by_cases hk : κ x = k <;> simp [List.filter_cons, hk, ih]

/-! The nearest-unvisited scan: characterization of its `none` and `some`
results, and existence of a result while an unvisited index remains. -/

theorem nearestGo_none {visited : List Bool} {cur : ℚ × ℚ × ℚ} :
    ∀ (ps : List (ℚ × ℚ × ℚ)) (i : ℕ) (acc : Option (ℕ × ℚ)),
      nearestGo visited cur ps i acc = none →
      acc = none ∧ ∀ m, m < ps.length → visited.getD (i + m) true = true := by
  intro ps
  induction ps with
  | nil =>
    intro i acc h
    exact ⟨h, fun m hm => absurd hm (by simp)⟩
  | cons p ps ih =>
    intro i acc h
    simp only [nearestGo] at h
    obtain ⟨h1, h2⟩ := ih (i + 1) _ h
    by_cases hv : visited.getD i true
    · rw [if_pos hv] at h1
      refine ⟨h1, fun m hm => ?_⟩
      match m with
      | 0 => simpa using hv
      | m + 1 =>
        rw [show i + (m + 1) = i + 1 + m by omega]
        exact h2 m (by simpa using hm)
    · rw [if_neg hv] at h1
      exfalso
      rcases acc with _ | ⟨j, d⟩
      · exact Option.noConfusion h1
      · have h1' : (if dist2 cur p < d then some (i, dist2 cur p) else some (j, d)) = none := h1
        split_ifs at h1'

theorem nearestGo_some_prop (P : ℕ → Prop) {visited : List Bool} {cur : ℚ × ℚ × ℚ} :
    ∀ (ps : List (ℚ × ℚ × ℚ)) (i : ℕ) (acc : Option (ℕ × ℚ)),
      (∀ j d, acc = some (j, d) → P j) →
      (∀ m, m < ps.length → visited.getD (i + m) true = false → P (i + m)) →
      ∀ j d, nearestGo visited cur ps i acc = some (j, d) → P j := by
  intro ps
  induction ps with
  | nil => exact fun i acc hacc _ j d h => hacc j d h
  | cons p ps ih =>
    intro i acc hacc hnew j d h
    simp only [nearestGo] at h
    refine ih (i + 1) _ ?_ ?_ j d h
    · intro j2 d2 hacc2
      by_cases hv : visited.getD i true
      · rw [if_pos hv] at hacc2
        exact hacc j2 d2 hacc2
      · rw [if_neg hv] at hacc2
        have hPi : P i := by
          have := hnew 0 (by simp) (by simpa using hv)
          simpa using this
        rcases acc with _ | ⟨j3, d3⟩
        · have hij : i = j2 := congrArg Prod.fst (Option.some.inj hacc2)
          exact hij ▸ hPi
        · have hacc2' : (if dist2 cur p < d3 then some (i, dist2 cur p) else some (j3, d3))
              = some (j2, d2) := hacc2
          split_ifs at hacc2'
          · have hij : i = j2 := congrArg Prod.fst (Option.some.inj hacc2')
            exact hij ▸ hPi
          · have hij : j3 = j2 := congrArg Prod.fst (Option.some.inj hacc2')
            exact hij ▸ hacc j3 d3 rfl
    · intro m hm hvm
      rw [show i + 1 + m = i + (m + 1) by omega] at hvm ⊢
      exact hnew (m + 1) (by simpa using hm) hvm

theorem nearestScan_none_all_visited {coords : List (ℚ × ℚ × ℚ)} {visited : List Bool}
    {cur : ℚ × ℚ × ℚ} (h : nearestScan coords visited cur = none) :
    ∀ m, m < coords.length → visited.getD m true = true := by
  intro m hm
  have := (nearestGo_none coords 0 none h).2 m hm
  simpa using this

theorem nearestScan_some_unvisited {coords : List (ℚ × ℚ × ℚ)} {visited : List Bool}
    {cur : ℚ × ℚ × ℚ} {j : ℕ} {d : ℚ}
    (h : nearestScan coords visited cur = some (j, d)) :
    j < coords.length ∧ visited.getD j true = false := by
  refine nearestGo_some_prop (fun j2 => j2 < coords.length ∧ visited.getD j2 true = false)
    coords 0 none (fun _ _ hacc => Option.noConfusion hacc) ?_ j d h
  intro m hm hvm
  constructor
  · simpa using hm
  · exact hvm

theorem nearestScan_isSome {coords : List (ℚ × ℚ × ℚ)} {visited : List Bool}
    {cur : ℚ × ℚ × ℚ} (h : ∃ m, m < coords.length ∧ visited.getD m true = false) :
    ∃ j d, nearestScan coords visited cur = some (j, d) := by
  rcases hs : nearestScan coords visited cur with _ | ⟨j, d⟩
  · obtain ⟨m, hm, hv⟩ := h
    rw [nearestScan_none_all_visited hs m hm] at hv
    exact Bool.noConfusion hv
  · exact ⟨j, d, rfl⟩

/-- Loop invariant of the nearest-neighbour construction after k iterations:
the path holds k+1 distinct in-range indices, the visited flags mark exactly
the path members, and the path still starts at index 0. -/
def GInv (n : ℕ) (k : ℕ) (st : List ℕ × List Bool × ℕ) : Prop :=
  st.1.Nodup ∧ st.1.length = k + 1 ∧ (∀ i ∈ st.1, i < n) ∧ st.2.1.length = n ∧
    (∀ i, i < n → (st.2.1.getD i true = true ↔ i ∈ st.1)) ∧ st.1.head? = some 0

theorem ginv_init (coords : List (ℚ × ℚ × ℚ)) (hne : coords.length ≠ 0) :
    GInv coords.length 0 (greedyInit coords) := by
  refine ⟨List.nodup_singleton 0, rfl, ?_, ?_, ?_, rfl⟩
  · intro i hi
    simp only [greedyInit, List.mem_singleton] at hi
    omega
  · simp [greedyInit]
  · intro i hi
    show ((List.replicate coords.length false).set 0 true).getD i true = true ↔ i ∈ [0]
    rw [List.getD_eq_getElem?_getD, List.getElem?_set]
    by_cases hi0 : 0 = i
    · rw [if_pos hi0, if_pos (by simp; omega)]
      simp [← hi0]
    · rw [if_neg hi0, List.getElem?_replicate, if_pos hi]
      simp only [Option.getD_some, List.mem_singleton]
      constructor
      · intro hcon
        exact absurd hcon (by simp)
      · intro hcon
        exact absurd hcon.symm hi0

theorem ginv_step (coords : List (ℚ × ℚ × ℚ)) (k : ℕ) (st : List ℕ × List Bool × ℕ)
    (h : GInv coords.length k st) (hk : k + 1 < coords.length) :
    GInv coords.length (k + 1) (greedyStep coords st) := by
  obtain ⟨hnd, hlen, hmem, hvlen, hvis, hhead⟩ := h
  have hex : ∃ m, m < coords.length ∧ st.2.1.getD m true = false := by
    by_contra hcon
    push_neg at hcon
    have hsub : List.range coords.length ⊆ st.1 := by
      intro i hi
      rw [List.mem_range] at hi
      refine (hvis i hi).mp ?_
      have hne := hcon i hi
      cases hgd : st.2.1.getD i true
      · exact absurd hgd hne
      · rfl
    have hle := ((List.nodup_range coords.length).subperm hsub).length_le
    rw [List.length_range] at hle
    omega
  obtain ⟨j, d, hjd⟩ := nearestScan_isSome hex
  have hnx := nearestScan_some_unvisited hjd
  have hnotmem : j ∉ st.1 := by
    intro hmem2
    have h2 := hnx.2
    rw [(hvis j hnx.1).mpr hmem2] at h2
    exact Bool.noConfusion h2
  unfold greedyStep
  rw [hjd]
  refine ⟨?_, ?_, ?_, ?_, ?_, ?_⟩
  · refine hnd.append (List.nodup_singleton j) ?_
    intro a ha hb
    rw [List.mem_singleton] at hb
    exact hnotmem (hb ▸ ha)
  · simp [hlen]
  · intro i hi
    rw [List.mem_append] at hi
    rcases hi with hi | hi
    · exact hmem i hi
    · rw [List.mem_singleton] at hi
      exact hi ▸ hnx.1
  · simp [hvlen]
  · intro i hi
    show (st.2.1.set j true).getD i true = true ↔ i ∈ st.1 ++ [j]
    rw [List.getD_eq_getElem?_getD, List.getElem?_set, List.mem_append]
    by_cases hij : j = i
    · rw [if_pos hij, if_pos (by omega)]
      simp [← hij]
    · rw [if_neg hij, ← List.getD_eq_getElem?_getD, hvis i hi, List.mem_singleton]
      constructor
      · exact Or.inl
      · intro hcon
        rcases hcon with hcon | hcon
        · exact hcon
        · exact absurd hcon.symm hij
  · rcases hpath : st.1 with _ | ⟨p0, pt⟩
    · rw [hpath] at hhead
      exact Option.noConfusion hhead
    · rw [hpath] at hhead
      show ((p0 :: pt) ++ [j]).head? = some 0
      simpa using hhead

theorem ginv_iterate (coords : List (ℚ × ℚ × ℚ)) (hne : coords.length ≠ 0) (m : ℕ)
    (hm : m + 1 ≤ coords.length) :
    GInv coords.length m ((greedyStep coords)^[m] (greedyInit coords)) := by
  induction m with
  | zero => simpa using ginv_init coords hne
  | succ p ih =>
    rw [Function.iterate_succ_apply']
    exact ginv_step coords p _ (ih (by omega)) (by omega)

/-- The nearest-neighbour path on a nonempty coordinate list is defined, is
a permutation of all indices, and starts at index 0. -/
theorem greedyPath_spec (coords : List (ℚ × ℚ × ℚ)) (hne : coords.length ≠ 0) :
    ∃ path, greedyPath coords = some path ∧ path.Perm (List.range coords.length) ∧
      path.head? = some 0 := by
  obtain ⟨hnd, hlen, hmem, _, _, hhead⟩ :=
    ginv_iterate coords hne (coords.length - 1) (by omega)
  refine ⟨_, ?_, ?_, hhead⟩
  · unfold greedyPath
    rw [if_neg hne]
  · have hsub : ((greedyStep coords)^[coords.length - 1] (greedyInit coords)).1 ⊆
        List.range coords.length := fun i hi => List.mem_range.mpr (hmem i hi)
    refine (hnd.subperm hsub).perm_of_length_le ?_
    rw [List.length_range, hlen]
    omega

theorem parseAll_length : ∀ {colors : List ColorEntry} {rgbs : List (ℕ × ℕ × ℕ)},
    parseAll colors = some rgbs → rgbs.length = colors.length := by
  intro colors
  induction colors with
  | nil =>
    intro rgbs h
    simp only [parseAll, Option.some.injEq] at h
    rw [← h]
    rfl
  | cons c cs ih =>
    intro rgbs h
    simp only [parseAll, Option.bind_eq_bind] at h
    rcases hr : hex_to_rgb c.hex with _ | rgb
    · rw [hr] at h
      simp at h
    · rw [hr] at h
      rcases hrest : parseAll cs with _ | rest
      · rw [hrest] at h
        simp at h
      · rw [hrest] at h
        simp only [Option.some_bind, Option.pure_def, Option.some.injEq] at h
        rw [← h]
        simp [ih hrest]

/-- Claim C4: on every non-empty, fully-parseable entry list the ordering
produced by `sort_colors` (nearest-neighbour path plus the stable re-sort)
is a permutation of the input indices 0..n-1, for every Oklab conversion. -/
theorem C4_ordering_perm (oklab : ℚ × ℚ × ℚ → ℚ × ℚ × ℚ) (colors : List ColorEntry)
    (rgbs : List (ℕ × ℕ × ℕ)) (hne : colors ≠ []) (hr : parseAll colors = some rgbs) :
    ∃ idxs, sort_colors oklab colors = some idxs ∧
      idxs.Perm (List.range colors.length) := by
  have hlen : rgbs.length = colors.length := parseAll_length hr
  have hcl : (rgbs.map fun rgb => oklab (rawChannels rgb)).length = colors.length := by
    simp [hlen]
  have hcne : (rgbs.map fun rgb => oklab (rawChannels rgb)).length ≠ 0 := by
    rw [hcl]
    intro h0
    exact hne (List.length_eq_zero.mp h0)
  obtain ⟨path, hp, hperm, _⟩ := greedyPath_spec _ hcne
  refine ⟨List.insertionSort (keyRel rgbs) path, ?_, ?_⟩
  · unfold sort_colors
    rw [hr]
    simp only [Option.some_bind, Option.bind_eq_bind]
    rw [hp]
    rfl
  · exact (List.perm_insertionSort _ path).trans (hcl ▸ hperm)

/-- Claim C4 witness on a concrete two-entry list. -/
theorem C4_ordering_perm_witness :
    ∃ idxs, sort_colors id [⟨"red", "ff0000"⟩, ⟨"white", "ffffff"⟩] = some idxs ∧
      idxs.Perm (List.range 2) := by
  have h := C4_ordering_perm id [⟨"red", "ff0000"⟩, ⟨"white", "ffffff"⟩]
    [(255, 0, 0), (255, 255, 255)] (by simp) (by decide)
  simpa using h

theorem finalKey_fst (rgb : ℕ × ℕ × ℕ) : (finalKey rgb).1 = 0 ∨ (finalKey rgb).1 = 1 := by
  simp only [finalKey]
  split_ifs <;> simp

theorem idxKey_fst (rgbs : List (ℕ × ℕ × ℕ)) (i : ℕ) :
    (idxKey rgbs i).1 = 0 ∨ (idxKey rgbs i).1 = 1 := finalKey_fst _

theorem keyLe_fst_one {a b : ℤ × ℤ} (h : keyLe a b) (hb : b.1 = 0 ∨ b.1 = 1)
    (ha : a.1 = 1) : b.1 = 1 := by
  unfold keyLe at h
  omega

theorem keyLe_snd_le {a b : ℤ × ℤ} (h : keyLe a b) (ha : a.1 = 1) (hb : b.1 = 1) :
    a.2 ≤ b.2 := by
  unfold keyLe at h
  omega

instance (rgbs : List (ℕ × ℕ × ℕ)) : IsTotal ℕ (keyRel rgbs) :=
  inferInstanceAs (IsTotal ℕ (sortKeyRel (idxKey rgbs)))

instance (rgbs : List (ℕ × ℕ × ℕ)) : IsTrans ℕ (keyRel rgbs) :=
  inferInstanceAs (IsTrans ℕ (sortKeyRel (idxKey rgbs)))

theorem sort_colors_eq_insertionSort {oklab : ℚ × ℚ × ℚ → ℚ × ℚ × ℚ}
    {colors : List ColorEntry} {rgbs : List (ℕ × ℕ × ℕ)} {path idxs : List ℕ}
    (hr : parseAll colors = some rgbs)
    (hp : greedyPath (rgbs.map fun rgb => oklab (rawChannels rgb)) = some path)
    (hs : sort_colors oklab colors = some idxs) :
    List.insertionSort (keyRel rgbs) path = idxs := by
  unfold sort_colors at hs
  rw [hr] at hs
  simp only [Option.some_bind, Option.bind_eq_bind] at hs
  rw [hp] at hs
  simpa using hs

/-- Claim C6 as amended: in the final ordering — for any Oklab conversion —
the output is a permutation of the nearest-neighbour path in which (i) once
a light-neutral entry (final key class 1, i.e. HSL saturation < 0.05 and
lightness > 0.75 of the /255-normalized color) appears, every later entry is
light-neutral too (light neutrals sit at the end), (ii) among light
neutrals the key ⌊lightness·100⌋ — TRUNCATION, not the claim's round — is
nondecreasing, and (iii) the sort is stable: filtering any fixed key class
yields exactly the path-ordered sublist. -/
theorem C6_amended_stable_resort (oklab : ℚ × ℚ × ℚ → ℚ × ℚ × ℚ)
    (colors : List ColorEntry) (rgbs : List (ℕ × ℕ × ℕ)) (path idxs : List ℕ)
    (hr : parseAll colors = some rgbs)
    (hp : greedyPath (rgbs.map fun rgb => oklab (rawChannels rgb)) = some path)
    (hs : sort_colors oklab colors = some idxs) :
    idxs.Perm path ∧
    (∀ p q (h1 : p < idxs.length) (h2 : q < idxs.length), p < q →
      (idxKey rgbs (idxs.get ⟨p, h1⟩)).1 = 1 → (idxKey rgbs (idxs.get ⟨q, h2⟩)).1 = 1) ∧
    (∀ p q (h1 : p < idxs.length) (h2 : q < idxs.length), p < q →
      (idxKey rgbs (idxs.get ⟨p, h1⟩)).1 = 1 → (idxKey rgbs (idxs.get ⟨q, h2⟩)).1 = 1 →
      (idxKey rgbs (idxs.get ⟨p, h1⟩)).2 ≤ (idxKey rgbs (idxs.get ⟨q, h2⟩)).2) ∧
    (∀ k, idxs.filter (fun i => idxKey rgbs i = k) =
      path.filter (fun i => idxKey rgbs i = k)) := by
  have heq := sort_colors_eq_insertionSort hr hp hs
  have hpw : idxs.Pairwise (keyRel rgbs) := heq ▸ List.sorted_insertionSort (keyRel rgbs) path
  have hget := List.pairwise_iff_getElem.mp hpw
  refine ⟨heq ▸ List.perm_insertionSort _ path, ?_, ?_,
    fun k => heq ▸ filter_insertionSort_key (idxKey rgbs) k path⟩
  · intro p q h1 h2 hpq hlight
    have hrel : keyLe (idxKey rgbs (idxs.get ⟨p, h1⟩)) (idxKey rgbs (idxs.get ⟨q, h2⟩)) := by
      have := hget p q h1 h2 hpq
      simpa [List.get_eq_getElem] using this
    exact keyLe_fst_one hrel (idxKey_fst rgbs _) hlight
  · intro p q h1 h2 hpq hlp hlq
    have hrel : keyLe (idxKey rgbs (idxs.get ⟨p, h1⟩)) (idxKey rgbs (idxs.get ⟨q, h2⟩)) := by
      have := hget p q h1 h2 hpq
      simpa [List.get_eq_getElem] using this
    exact keyLe_snd_le hrel hlp hlq

set_option maxRecDepth 10000 in
unseal Rat.mul Rat.inv Rat.add Rat.sub in
/-- Claim C6 witness: concrete instantiation of the amended statement at a
two-gray input, with the stability filter evaluated at key (1, 77). -/
theorem C6_amended_stable_resort_witness :
    ([1, 0] : List ℕ).Perm [0, 1] ∧
    ([1, 0] : List ℕ).filter
        (fun i => idxKey [(199, 199, 199), (198, 198, 198)] i = (1, 77)) =
      ([0, 1] : List ℕ).filter
        (fun i => idxKey [(199, 199, 199), (198, 198, 198)] i = (1, 77)) := by
  have h := C6_amended_stable_resort id [⟨"g199", "c7c7c7"⟩, ⟨"g198", "c6c6c6"⟩]
    [(199, 199, 199), (198, 198, 198)] [0, 1] [1, 0] (by decide) (by decide) (by decide)
  exact ⟨h.1, h.2.2.2 (1, 77)⟩

set_option maxRecDepth 10000 in
unseal Rat.mul Rat.inv Rat.add Rat.sub in
/-- Claim C6 counterexample to the claim as stated: the grays 0xc7 and 0xc6
are both light-neutral and share the claim's key round(lightness·100) = 78,
so the claim's stable-tie rule says they keep their nearest-neighbour-path
order [0, 1]; the code's truncated keys are 78 and 77, and it outputs
[1, 0]. -/
theorem C6_round_key_cex :
    specRoundKey (199, 199, 199) = specRoundKey (198, 198, 198) ∧
    (toHsl (normalizeRgb (199, 199, 199))).saturation < 1/20 ∧
    (toHsl (normalizeRgb (199, 199, 199))).lightness > 3/4 ∧
    (toHsl (normalizeRgb (198, 198, 198))).saturation < 1/20 ∧
    (toHsl (normalizeRgb (198, 198, 198))).lightness > 3/4 ∧
    greedyPath ([(199, 199, 199), (198, 198, 198)].map
      fun rgb => id (rawChannels rgb)) = some [0, 1] ∧
    sort_colors id [⟨"g199", "c7c7c7"⟩, ⟨"g198", "c6c6c6"⟩] = some [1, 0] := by
  decide

/-- The three-entry input of claim C9: white first, then two saturated
colors. -/
def colors9 : List ColorEntry := [⟨"white", "ffffff"⟩, ⟨"red", "ff0000"⟩, ⟨"blue", "0000ff"⟩]

/-- The parsed RGB8 values of `colors9`. -/
def rgbs9 : List (ℕ × ℕ × ℕ) := [(255, 255, 255), (255, 0, 0), (0, 0, 255)]

set_option maxRecDepth 10000 in
unseal Rat.mul Rat.inv Rat.add Rat.sub in
/-- Claim C9: there is an input whose first entry is near-grayscale and
bright (white: saturation 0 < 0.05, lightness 1 > 0.75) for which — for any
Oklab conversion — the greedy path starts at index 0, yet the final ordering
does not: the refinement pass moves the light-neutral starting entry away
from the front. -/
theorem C9_refinement_moves_start :
    (toHsl (normalizeRgb (255, 255, 255))).saturation < 1/20 ∧
    (toHsl (normalizeRgb (255, 255, 255))).lightness > 3/4 ∧
    ∀ oklab : ℚ × ℚ × ℚ → ℚ × ℚ × ℚ, ∃ path idxs,
      greedyPath (rgbs9.map fun rgb => oklab (rawChannels rgb)) = some path ∧
      path.head? = some 0 ∧
      sort_colors oklab colors9 = some idxs ∧ ¬ idxs.head? = some 0 := by
  refine ⟨by decide, by decide, fun oklab => ?_⟩
  have hr : parseAll colors9 = some rgbs9 := by decide
  have hcne : (rgbs9.map fun rgb => oklab (rawChannels rgb)).length ≠ 0 := by
    simp [rgbs9]
  obtain ⟨path, hp, hperm, hhead⟩ := greedyPath_spec _ hcne
  have hlen3 : (rgbs9.map fun rgb => oklab (rawChannels rgb)).length = 3 := by
    simp [rgbs9]
  rw [hlen3] at hperm
  have hs : sort_colors oklab colors9 = some (List.insertionSort (keyRel rgbs9) path) := by
    unfold sort_colors
    rw [hr]
    simp only [Option.some_bind, Option.bind_eq_bind]
    rw [hp]
    rfl
  refine ⟨path, List.insertionSort (keyRel rgbs9) path, hp, hhead, hs, ?_⟩
  have hpw : (List.insertionSort (keyRel rgbs9) path).Pairwise (keyRel rgbs9) :=
    List.sorted_insertionSort (keyRel rgbs9) path
  have h1mem : 1 ∈ List.insertionSort (keyRel rgbs9) path :=
    ((List.perm_insertionSort (keyRel rgbs9) path).trans hperm).mem_iff.mpr (by simp)
  intro hhead0
  rcases hx : List.insertionSort (keyRel rgbs9) path with _ | ⟨h0, rest⟩
  · rw [hx] at hhead0
    exact Option.noConfusion hhead0
  · rw [hx] at hhead0 hpw h1mem
    have h00 : h0 = 0 := Option.some.inj hhead0
    rw [List.pairwise_cons] at hpw
    have h1rest : 1 ∈ rest := by
      rcases List.mem_cons.mp h1mem with hc | hc
      · rw [h00] at hc
        exact absurd hc (by norm_num)
      · exact hc
    have hrel := hpw.1 1 h1rest
    rw [h00] at hrel
    revert hrel
    decide

theorem qmod_add_right (a b : ℚ) (hb : b ≠ 0) : qmod (a + b) b = qmod a b := by
  unfold qmod
  rw [show (a + b) / b = a / b + 1 by field_simp]
  rw [Int.floor_add_one]
  push_cast
  ring

theorem fromHsl_add360 (h s l : ℚ) : fromHsl ⟨h + 360, s, l⟩ = fromHsl ⟨h, s, l⟩ := by
  unfold fromHsl
  dsimp only
  rw [qmod_add_right h 360 (by norm_num)]

theorem luminance_add360 (h s l : ℚ) : luminance ⟨h + 360, s, l⟩ = luminance ⟨h, s, l⟩ := by
  unfold luminance
  rw [fromHsl_add360]

/-- Claim C5: the label-color decision implements exactly the spec's rule —
candidates sharing the background's normalized hue with saturation halved
and lightness 0.775 / 0.28; lightened chosen outright when the background is
visually dark (luminance < 0.62 and saturation·lightness > 0.1) and the
normalized hue lies in [36,80], [90,185] or [300,340]; otherwise whichever
candidate's luminance differs more from the background's, ties to darkened.
The source keeps the candidates' hue unnormalized; the (+360)-periodicity of
the HSL→RGB conversion makes the two formulations agree. -/
theorem C5_contrast_rule (bg : ℚ × ℚ × ℚ) : pick_label_color bg = specPickLabelColor bg := by
  have hstr : ¬ ("dark " = "light") := by decide
  unfold pick_label_color specPickLabelColor
  dsimp only
  by_cases hneg : (toHsl bg).hue < 0
  · rw [if_pos hneg]
    rw [fromHsl_add360 (toHsl bg).hue ((toHsl bg).saturation * (1/2)) (775/1000),
      fromHsl_add360 (toHsl bg).hue ((toHsl bg).saturation * (1/2)) (28/100),
      luminance_add360 (toHsl bg).hue ((toHsl bg).saturation * (1/2)) (775/1000),
      luminance_add360 (toHsl bg).hue ((toHsl bg).saturation * (1/2)) (28/100)]
    split_ifs <;> simp_all
    all_goals
      exfalso
      rename_i hle hab hconj
      exact absurd hconj.1.2 (not_lt.mpr hle)
  · rw [if_neg hneg]
    split_ifs <;> simp_all
    all_goals
      exfalso
      rename_i hle hab hconj
      exact absurd hconj.1.2 (not_lt.mpr hle)

/-- Claim C8 counterexample: at box width 1 the scale-search loop can never
accept: the measured width is clamped to at least 1 (`.max(1)`, src line
116) while the fit threshold is `1 - 1/20 = 1`, so no iteration fits — the
loop runs forever.  This holds for EVERY font behavior; it is stated at the
most favorable one (raw width 0 at every scale). -/
theorem C8_width1_cex : 0 < 1 ∧ ¬ ∃ k, fitsAt (fun _ => 0) 1 k := by
  refine ⟨Nat.one_pos, ?_⟩
  rintro ⟨k, hk⟩
  simp [fitsAt, measuredWidth, fitThreshold] at hk

/-- Claim C8 as amended: for a box of width at least 2, if some scale step
shrinks the raw glyph width to at most 1 pixel (the spec's "increasing the
divisor monotonically shrinks rendered width toward zero"), then the
scale-search loop terminates, accepting exactly the first iteration whose
measured width is below `width - width/20`. -/
theorem C8_amended_terminates (raw : ℕ → ℕ) (width : ℕ) (hw : 2 ≤ width)
    (hshrink : ∃ k, raw k ≤ 1) :
    ∃ k, fitsAt raw width k ∧ ∀ j, j < k → ¬ fitsAt raw width j := by
  obtain ⟨k0, hk0⟩ := hshrink
  have hth : 2 ≤ fitThreshold width := by
    unfold fitThreshold
    omega
  have hfit : fitsAt raw width k0 := by
    unfold fitsAt measuredWidth
    omega
  exact ⟨Nat.find ⟨k0, hfit⟩, Nat.find_spec ⟨k0, hfit⟩, fun j hj => Nat.find_min ⟨k0, hfit⟩ hj⟩

/-- Claim C8 witness: with a 2-pixel box and a font whose raw width is 0,
the first scale is accepted. -/
theorem C8_amended_terminates_witness :
    ∃ k, fitsAt (fun _ => 0) 2 k ∧ ∀ j, j < k → ¬ fitsAt (fun _ => 0) 2 j :=
  C8_amended_terminates (fun _ => 0) 2 (by norm_num) ⟨0, by norm_num⟩

theorem qmod_nonneg (a b : ℚ) (hb : 0 < b) : 0 ≤ qmod a b := by
  unfold qmod
  have h := Int.floor_le (a / b)
  have h2 : b * (⌊a / b⌋ : ℚ) ≤ b * (a / b) := mul_le_mul_of_nonneg_left h hb.le
  have h3 : b * (a / b) = a := by field_simp
  linarith

theorem qmod_lt (a b : ℚ) (hb : 0 < b) : qmod a b < b := by
  unfold qmod
  have h := Int.lt_floor_add_one (a / b)
  have h2 : b * (a / b) < b * ((⌊a / b⌋ : ℚ) + 1) := by
    exact mul_lt_mul_of_pos_left h hb
  have h3 : b * (a / b) = a := by field_simp
  have h4 : b * ((⌊a / b⌋ : ℚ) + 1) = b * (⌊a / b⌋ : ℚ) + b := by ring
  linarith

theorem toU8_lt_toU8 (v w : ℚ) (h0 : 0 ≤ v) (hw : w ≤ 1) (hd : v + 2/255 ≤ w) :
    toU8 v < toU8 w := by
  unfold toU8
  rw [round_eq, round_eq]
  have hmono : ⌊255 * v + 1 / 2⌋ + 2 ≤ ⌊255 * w + 1 / 2⌋ := by
    rw [show (⌊255 * v + 1 / 2⌋ + 2 : ℤ) = ⌊255 * v + 1 / 2 + (2 : ℤ)⌋ by
      rw [Int.floor_add_int]]
    apply Int.floor_le_floor
    push_cast
    linarith
  have h0v : 0 ≤ ⌊255 * v + 1 / 2⌋ := by
    rw [Int.le_floor]
    push_cast
    linarith
  have hw255 : ⌊255 * w + 1 / 2⌋ ≤ 255 := by
    have hle : 255 * w + 1 / 2 ≤ 1 / 2 + (255 : ℤ) := by
      push_cast
      linarith
    have := Int.floor_le_floor hle
    rw [Int.floor_add_int] at this
    have hhalf : ⌊(1 / 2 : ℚ)⌋ = 0 := by norm_num [Int.floor_eq_iff]
    omega
  omega

/-- The label candidate actually chosen by `pick_label_color` is one of the
two spec candidates: same hue as the background, saturation halved,
lightness 0.775 or 0.28. -/
theorem pick_label_color_eq_chosen (bg : ℚ × ℚ × ℚ) :
    ∃ l, (l = 775/1000 ∨ l = 28/100) ∧
      pick_label_color bg =
        quantize (fromHsl ⟨(toHsl bg).hue, (toHsl bg).saturation * (1/2), l⟩) := by
  unfold pick_label_color
  dsimp only
  split_ifs <;>
    first
      | exact ⟨775/1000, Or.inl rfl, rfl⟩
      | exact ⟨28/100, Or.inr rfl, rfl⟩
      | simp_all

/-- For an in-gamut background the HSL saturation lies in [0, 1]. -/
theorem toHsl_sat_bounds (bg : ℚ × ℚ × ℚ) (h1 : 0 ≤ bg.1) (h2 : bg.1 ≤ 1)
    (h3 : 0 ≤ bg.2.1) (h4 : bg.2.1 ≤ 1) (h5 : 0 ≤ bg.2.2) (h6 : bg.2.2 ≤ 1) :
    0 ≤ (toHsl bg).saturation ∧ (toHsl bg).saturation ≤ 1 := by
  obtain ⟨r, g, b⟩ := bg
  dsimp only at h1 h2 h3 h4 h5 h6
  unfold toHsl
  dsimp only
  by_cases hd : max r (max g b) - min r (min g b) = 0
  · rw [if_pos hd]
    constructor <;> norm_num
  · rw [if_neg hd]
    dsimp only
    have hMb : max r (max g b) ≤ 1 := max_le h2 (max_le h4 h6)
    have hmb : 0 ≤ min r (min g b) := le_min h1 (le_min h3 h5)
    have hmM : min r (min g b) ≤ max r (max g b) :=
      le_trans (min_le_left _ _) (le_max_left _ _)
    have hlt : min r (min g b) < max r (max g b) :=
      lt_of_le_of_ne hmM (fun he => hd (by rw [he]; ring))
    have hrw : 2 * ((max r (max g b) + min r (min g b)) / 2) - 1
        = max r (max g b) + min r (min g b) - 1 := by ring
    rw [hrw]
    have hlt1 : |max r (max g b) + min r (min g b) - 1| < 1 :=
      abs_lt.mpr ⟨by linarith, by linarith⟩
    have hnum : max r (max g b) - min r (min g b)
        ≤ 1 - |max r (max g b) + min r (min g b) - 1| := by
      rcases abs_cases (max r (max g b) + min r (min g b) - 1) with ⟨he, _⟩ | ⟨he, _⟩ <;>
        rw [he] <;> linarith
    constructor
    · exact div_nonneg (by linarith) (by linarith)
    · exact (div_le_one (by linarith)).mpr hnum

/-- Core of the chromaticity argument: when the chroma of an HSL color is at
least 2/255 and the channels stay inside [0, 1], the 8-bit quantization of
its RGB image has two distinct channels (the extremes differ by at least two
quantization steps). -/
theorem quantize_fromHsl_not_gray (h s l : ℚ)
    (hc : 2/255 ≤ (1 - |2 * l - 1|) * s)
    (hm0 : 0 ≤ l - (1 - |2 * l - 1|) * s / 2)
    (hm1 : l + (1 - |2 * l - 1|) * s / 2 ≤ 1) :
    ¬ ((quantize (fromHsl ⟨h, s, l⟩)).1 = (quantize (fromHsl ⟨h, s, l⟩)).2.1 ∧
       (quantize (fromHsl ⟨h, s, l⟩)).2.1 = (quantize (fromHsl ⟨h, s, l⟩)).2.2) := by
  have hq0 : 0 ≤ qmod (qmod h 360 / 60) 2 := qmod_nonneg _ 2 (by norm_num)
  have hq2 : qmod (qmod h 360 / 60) 2 < 2 := qmod_lt _ 2 (by norm_num)
  have hfac0 : 0 ≤ 1 - |qmod (qmod h 360 / 60) 2 - 1| := by
    have : |qmod (qmod h 360 / 60) 2 - 1| ≤ 1 := abs_le.mpr ⟨by linarith, by linarith⟩
    linarith
  have hfac1 : 1 - |qmod (qmod h 360 / 60) 2 - 1| ≤ 1 := by
    have : 0 ≤ |qmod (qmod h 360 / 60) 2 - 1| := abs_nonneg _
    linarith
  have hc0 : 0 ≤ (1 - |2 * l - 1|) * s := by linarith
  have hx0 : 0 ≤ (1 - |2 * l - 1|) * s * (1 - |qmod (qmod h 360 / 60) 2 - 1|) :=
    mul_nonneg hc0 hfac0
  have hxc : (1 - |2 * l - 1|) * s * (1 - |qmod (qmod h 360 / 60) 2 - 1|)
      ≤ (1 - |2 * l - 1|) * s := mul_le_of_le_one_right hc0 hfac1
  have hlow : toU8 (l - (1 - |2 * l - 1|) * s / 2)
      < toU8 ((1 - |2 * l - 1|) * s + (l - (1 - |2 * l - 1|) * s / 2)) := by
    apply toU8_lt_toU8 _ _ hm0 (by linarith) (by linarith)
  unfold quantize fromHsl
  dsimp only
  split_ifs <;> dsimp only <;> rintro ⟨hA, hB⟩
  · rw [zero_add] at hB
    exact absurd (hA.trans hB).symm (ne_of_lt hlow)
  · rw [zero_add] at hB
    exact absurd hB.symm (ne_of_lt hlow)
  · rw [zero_add] at hA
    exact absurd hA (ne_of_lt hlow)
  · rw [zero_add] at hA
    exact absurd (hA.trans hB) (ne_of_lt hlow)
  · rw [zero_add] at hB
    exact absurd hB (ne_of_lt hlow)
  · rw [zero_add] at hA
    exact absurd hA.symm (ne_of_lt hlow)

/-- Claim C7: on an in-gamut background whose HSL saturation exceeds 0.05,
the label color equals the 8-bit quantization of an HSL color carrying the
background's hue (with saturation halved and lightness 0.775 or 0.28) — the
hue-preservation part — and its three RGB8 channels are not all equal: the
result is never a fully desaturated gray. -/
theorem C7_chromatic_label (bg : ℚ × ℚ × ℚ)
    (hr0 : 0 ≤ bg.1) (hr1 : bg.1 ≤ 1) (hg0 : 0 ≤ bg.2.1) (hg1 : bg.2.1 ≤ 1)
    (hb0 : 0 ≤ bg.2.2) (hb1 : bg.2.2 ≤ 1)
    (hs : 1/20 < (toHsl bg).saturation) :
    (∃ l, (l = 775/1000 ∨ l = 28/100) ∧
      pick_label_color bg =
        quantize (fromHsl ⟨(toHsl bg).hue, (toHsl bg).saturation * (1/2), l⟩)) ∧
    ¬ ((pick_label_color bg).1 = (pick_label_color bg).2.1 ∧
       (pick_label_color bg).2.1 = (pick_label_color bg).2.2) := by
  obtain ⟨l, hl, heq⟩ := pick_label_color_eq_chosen bg
  obtain ⟨hs0, hs1⟩ := toHsl_sat_bounds bg hr0 hr1 hg0 hg1 hb0 hb1
  refine ⟨⟨l, hl, heq⟩, ?_⟩
  rw [heq]
  rcases hl with rfl | rfl
  · have habs : |2 * (775/1000 : ℚ) - 1| = 11/20 := by
      rw [show 2 * (775/1000 : ℚ) - 1 = 11/20 by norm_num]
      exact abs_of_nonneg (by norm_num)
    apply quantize_fromHsl_not_gray <;> rw [habs] <;> linarith
  · have habs : |2 * (28/100 : ℚ) - 1| = 11/25 := by
      rw [show 2 * (28/100 : ℚ) - 1 = -(11/25) by norm_num, abs_neg]
      exact abs_of_nonneg (by norm_num)
    apply quantize_fromHsl_not_gray <;> rw [habs] <;> linarith

set_option maxRecDepth 10000 in
unseal Rat.mul Rat.inv Rat.add Rat.sub in
/-- Claim C7 witness at the pure red background (saturation 1). -/
theorem C7_chromatic_label_witness :
    (1/20 : ℚ) < (toHsl (1, 0, 0)).saturation ∧
    ((∃ l, (l = 775/1000 ∨ l = 28/100) ∧
      pick_label_color (1, 0, 0) =
        quantize (fromHsl ⟨(toHsl (1, 0, 0)).hue, (toHsl (1, 0, 0)).saturation * (1/2), l⟩)) ∧
    ¬ ((pick_label_color (1, 0, 0)).1 = (pick_label_color (1, 0, 0)).2.1 ∧
       (pick_label_color (1, 0, 0)).2.1 = (pick_label_color (1, 0, 0)).2.2)) :=
  ⟨by decide, C7_chromatic_label (1, 0, 0) (by norm_num) (by norm_num) (by norm_num)
    (by norm_num) (by norm_num) (by norm_num) (by decide)⟩

end Lcpg
